import Mathlib

/-!
Verification development for the SudokuSolver repository (src/script.js).

The board, candidate-set tracker and backtracking search of script.js are
embedded as executable Lean definitions:

* the Board is the 81-slot grid of per-cell values as observed through the
  JS getValue accessor: 0 stands for a cell whose text parses to null/NaN/0
  (every caller only ever tests that value for truthiness, so those cases
  are indistinguishable to the core), 1-9 are placed digits;
* the JS Map holding each empty cell's candidate list is embedded as an
  insertion-ordered association list, matching JS Map iteration order:
  delete removes an entry, set updates in place when the key is present and
  appends at the end otherwise;
* the async solveStep function is embedded as a fueled recursive function
  (the awaits in the source only pace the DOM animation and carry no data),
  together with a trace-collecting variant used to reason about the states
  that the search actually reaches.
-/

namespace SudokuSolver

/-- Board model: 81 slots in row-major order, slot of cell (x, y) is 9*y+x.
Value 0 models an empty cell (getValue returns null/NaN there, which every
reader treats as falsy), values 1-9 are placed digits. -/
abbrev Board := List Nat

/-- Read one slot of the board, 0 when out of range (never reached by the
solver, whose keys all lie below 81). -/
def getV (b : Board) (k : Nat) : Nat := b.getD k 0

/-- Write one slot of the board. -/
def setV (b : Board) (k v : Nat) : Board := b.set k v

/-- Embeds getValue(x, y) of script.js. -/
def getValue (b : Board) (x y : Nat) : Nat := getV b (9 * y + x)

/-- Embeds setValue(x, y, value) of script.js; value 0 embeds writing ''. -/
def setValue (b : Board) (x y v : Nat) : Board := setV b (9 * y + x) v

/-- Board with all 81 cells empty. -/
def emptyBoard : Board := List.replicate 81 0

/-- Embeds filterOptionsColumn of script.js: clear opts at index v-1 for every
value v found in column x. -/
def filterOptionsColumn (opts : List Bool) (b : Board) (x : Nat) : List Bool :=
  (List.range 9).foldl (fun o y =>
    let v := getValue b x y
    if v ≠ 0 then o.set (v - 1) false else o) opts

/-- Embeds filterOptionsRow of script.js. -/
def filterOptionsRow (opts : List Bool) (b : Board) (y : Nat) : List Bool :=
  (List.range 9).foldl (fun o x =>
    let v := getValue b x y
    if v ≠ 0 then o.set (v - 1) false else o) opts

/-- Embeds filterOptionsBox of script.js: the 3x3 block of (x, y) is scanned
with the x-offset in the outer loop, as in the source. -/
def filterOptionsBox (opts : List Bool) (b : Board) (x y : Nat) : List Bool :=
  (List.range 3).foldl (fun o i =>
    (List.range 3).foldl (fun o j =>
      let v := getValue b (3 * (x / 3) + i) (3 * (y / 3) + j)
      if v ≠ 0 then o.set (v - 1) false else o) o) opts

/-- Embeds getCellOptions of script.js: start from nine true flags, filter by
column, row and box, then collect values 1..9 whose flag survived. -/
def getCellOptions (b : Board) (x y : Nat) : List Nat :=
  let opts := filterOptionsBox (filterOptionsRow (filterOptionsColumn
    (List.replicate 9 true) b x) b y) b x y
  ((List.range 9).map (fun i => i + 1)).filter (fun v => opts.getD (v - 1) false)

/-- Candidate mapping: the JS Map from cell key 9*y+x to the cell's candidate
list, embedded as an insertion-ordered association list. -/
abbrev CMap := List (Nat × List Nat)

/-- First binding of key k, as JS Map.get (keys are unique in every map the
program builds). -/
def mapGet : CMap → Nat → Option (List Nat)
  | [], _ => none
  | p :: t, k => if p.1 = k then some p.2 else mapGet t k

/-- JS Map.delete: drop the binding of k, keeping the order of the rest. -/
def mapDelete : CMap → Nat → CMap
  | [], _ => []
  | p :: t, k => if p.1 = k then mapDelete t k else p :: mapDelete t k

/-- JS Map.set: replace in place when the key is bound, append at the end
otherwise (so a deleted and re-set key moves to the end of iteration order). -/
def mapSet : CMap → Nat → List Nat → CMap
  | [], k, v => [(k, v)]
  | p :: t, k, v => if p.1 = k then (k, v) :: t else p :: mapSet t k v

/-- In-place mutation of the list bound to k, as the JS code's
cellOptions.get(key).splice / .push calls on the stored array. -/
def mapModify : CMap → Nat → (List Nat → List Nat) → CMap
  | [], _, _ => []
  | p :: t, k, f => if p.1 = k then (p.1, f p.2) :: t else p :: mapModify t k f

/-- Keys of the mapping in iteration order. -/
def keysOf (m : CMap) : List Nat := m.map (fun p => p.1)

/-- Strict comparison against the running minimum; none models the initial
Infinity of findNextCell. -/
def ltMin (n : Nat) : Option Nat → Bool
  | none => true
  | some m => n < m

/-- Loop of findNextCell: scan the map in iteration order, replacing the best
cell whenever a strictly shorter candidate list is found. -/
def findNextCellGo : CMap → Option Nat → Option Nat → Option Nat
  | [], best, _ => best
  | p :: t, best, minLen =>
    if ltMin p.2.length minLen then findNextCellGo t (some p.1) (some p.2.length)
    else findNextCellGo t best minLen

/-- Embeds findNextCell of script.js. -/
def findNextCell (m : CMap) : Option Nat := findNextCellGo m none none

/-- Cell keys probed by the row/column loop of updateOptions, in source order:
for i = 0..8 first the row cell 9*y+i, then the column cell 9*i+x. -/
def rowColKeys (x y : Nat) : List Nat :=
  ((List.range 9).map (fun i => [9 * y + i, 9 * i + x])).flatten

/-- Cell keys probed by the box loop of updateOptions, in source order (the
x-offset i is the outer loop). -/
def boxKeys (x y : Nat) : List Nat :=
  ((List.range 3).map (fun i => (List.range 3).map
    (fun j => 9 * (3 * (y / 3) + j) + (3 * (x / 3) + i)))).flatten

/-- Full probe sequence of one updateOptions call. -/
def updateKeys (x y : Nat) : List Nat := rowColKeys x y ++ boxKeys x y

/-- One probe of updateOptions: if cell k is in the mapping and still has v as
a candidate, remove the first occurrence of v and record k in changes. -/
def removeStep (v : Nat) (acc : CMap × List Nat) (k : Nat) : CMap × List Nat :=
  match mapGet acc.1 k with
  | some l => if v ∈ l then (mapModify acc.1 k (fun t => t.erase v), acc.2 ++ [k]) else acc
  | none => acc

/-- Embeds updateOptions of script.js: probe every row, column and box cell of
(x, y) in source order, and return the mutated mapping with the list of cell
keys whose candidate list was changed. -/
def updateOptions (m : CMap) (x y v : Nat) : CMap × List Nat :=
  (updateKeys x y).foldl (removeStep v) (m, [])

/-- Embeds the undo loop of solveStep: push v back onto the candidate list of
every recorded cell, in the recorded order. -/
def undoAssignment (m : CMap) (changes : List Nat) (v : Nat) : CMap :=
  changes.foldl (fun m k => mapModify m k (fun l => l ++ [v])) m

/-- Embeds getAllCellOptions of script.js: for every cell in row-major order
whose value is falsy, bind its candidate list. -/
def getAllCellOptions (b : Board) : CMap :=
  (List.range 9).foldl (fun m y =>
    (List.range 9).foldl (fun m x =>
      if getValue b x y ≠ 0 then m
      else mapSet m (9 * y + x) (getCellOptions b x y)) m) []

/-- Value loop of solveStep: try each candidate of cell (x, y) in list order;
f is the recursive solve of the next cell. -/
def tryVals (f : CMap → Board → Option (Bool × CMap × Board)) (x y : Nat) :
    List Nat → CMap → Board → Option (Bool × CMap × Board)
  | [], m, b => some (false, m, b)
  | v :: rest, m, b =>
    let b1 := setValue b x y v
    let mc := updateOptions m x y v
    match f mc.1 b1 with
    | none => none
    | some (true, m3, b3) => some (true, m3, b3)
    | some (false, m3, b3) => tryVals f x y rest (undoAssignment m3 mc.2 v) b3

/-- Embeds solveStep of script.js, with fuel bounding the recursion depth
(none models running out of fuel and is never returned for adequate fuel).
The source tests the selected cell with the JS negation !cellKey, which is
true both for null and for the number 0, so a selected cell key 0 takes the
same branch as an empty mapping. -/
def solveStep : Nat → CMap → Board → Option (Bool × CMap × Board)
  | 0, _, _ => none
  | fuel + 1, m, b =>
    match findNextCell m with
    | none => some (true, m, b)
    | some 0 => some (true, m, b)
    | some k =>
      let x := k % 9
      let y := k / 9
      let opts := (mapGet m k).getD []
      let m1 := mapDelete m k
      match tryVals (solveStep fuel) x y opts m1 b with
      | none => none
      | some (true, m2, b2) => some (true, m2, b2)
      | some (false, m2, b2) => some (false, mapSet m2 k opts, setValue b2 x y 0)

/-- Embeds the solve click handler: build the mapping of getAllCellOptions and
run solveStep on it. Fuel 82 exceeds the possible recursion depth of 81. -/
def solveRun (b : Board) : Option (Bool × CMap × Board) :=
  solveStep 82 (getAllCellOptions b) b

/-- One search event: the mapping at the start of a solveStep invocation that
selected a cell, the selected cell key, and its candidate list in the order
its values are then tried. -/
abbrev TraceStep := CMap × Nat × List Nat

/-- Value loop of the trace-collecting variant of solveStep. -/
def tryValsT (f : CMap → Board → Option (Bool × CMap × Board × List TraceStep))
    (x y : Nat) :
    List Nat → CMap → Board → Option (Bool × CMap × Board × List TraceStep)
  | [], m, b => some (false, m, b, [])
  | v :: rest, m, b =>
    let b1 := setValue b x y v
    let mc := updateOptions m x y v
    match f mc.1 b1 with
    | none => none
    | some (true, m3, b3, tr) => some (true, m3, b3, tr)
    | some (false, m3, b3, tr) =>
      match tryValsT f x y rest (undoAssignment m3 mc.2 v) b3 with
      | none => none
      | some (r, m4, b4, tr2) => some (r, m4, b4, tr ++ tr2)

/-- Trace-collecting variant of solveStep: same control flow, and additionally
returns the list of TraceStep events of every invocation that selected a cell,
in execution order. -/
def solveStepT : Nat → CMap → Board → Option (Bool × CMap × Board × List TraceStep)
  | 0, _, _ => none
  | fuel + 1, m, b =>
    match findNextCell m with
    | none => some (true, m, b, [])
    | some 0 => some (true, m, b, [])
    | some k =>
      let x := k % 9
      let y := k / 9
      let opts := (mapGet m k).getD []
      let m1 := mapDelete m k
      match tryValsT (solveStepT fuel) x y opts m1 b with
      | none => none
      | some (true, m2, b2, tr) => some (true, m2, b2, (m, k, opts) :: tr)
      | some (false, m2, b2, tr) =>
        some (false, mapSet m2 k opts, setValue b2 x y 0, (m, k, opts) :: tr)

/-- All selection events of a full solve attempt started on board b. -/
def solveTrace (b : Board) : List TraceStep :=
  match solveStepT 82 (getAllCellOptions b) b with
  | some (_, _, _, tr) => tr
  | none => []

/-- Ascending check on a candidate list (strictly increasing). -/
def ascending : List Nat → Bool
  | [] => true
  | [_] => true
  | a :: b :: t => decide (a < b) && ascending (b :: t)

/-- Selection rule stated by the spec's words for findNextCell: the first cell
in iteration order whose candidate list length is minimal over the mapping. -/
def firstMinCell (m : CMap) : Option Nat :=
  (m.find? (fun p => m.all (fun q => decide (p.2.length ≤ q.2.length)))).map
    (fun p => p.1)

/-- Characters of the ECMAScript StrWhiteSpace set, as trimmed by the
string-to-number conversion behind isNaN: the WhiteSpace productions TAB,
VT, FF, SP, NBSP, ZWNBSP and the Unicode Zs category (OGHAM SPACE MARK,
EN QUAD through HAIR SPACE, NARROW NO-BREAK SPACE, MEDIUM MATHEMATICAL
SPACE, IDEOGRAPHIC SPACE), plus the LineTerminator productions LF, CR, LS
and PS. A string of these alone converts to 0, so isNaN is false on it. -/
def jsStrWhiteSpace (c : Char) : Bool :=
  c = ' ' || c = '\t' || c = '\n' || c = '\r' ||
  c.toNat = 11 || c.toNat = 12 ||
  c.toNat = 160 || c.toNat = 65279 ||
  c.toNat = 8232 || c.toNat = 8233 ||
  c.toNat = 5760 || (8192 ≤ c.toNat && c.toNat ≤ 8202) ||
  c.toNat = 8239 || c.toNat = 8287 || c.toNat = 12288

/-- Value written by the loader for one character, when the JS guard
!isNaN(cell) accepts it: digits parse to their value; StrWhiteSpace
characters are also accepted by isNaN (their one-character string converts
to the number 0) but are then written as text that parses to NaN, which
every later read treats exactly like an empty cell, so they are modeled as
writing 0. Every other single character converts to NaN, is rejected by the
guard, and writes nothing. -/
def jsNumericVal (c : Char) : Option Nat :=
  if c.isDigit then some (c.toNat - 48)
  else if jsStrWhiteSpace c then some 0
  else none

/-- One step of the loader: write the value of character c of line y at
character index x. The JS code indexes cells[9*y+x] without any bound check;
slot numbers of at least 81 hit an undefined array element and throw, which is
modeled as an error. -/
def loadChar (acc : Except Unit Board) (y x : Nat) (c : Char) : Except Unit Board :=
  match acc with
  | Except.error e => Except.error e
  | Except.ok b =>
    match jsNumericVal c with
    | none => Except.ok b
    | some v =>
      if 9 * y + x < 81 then Except.ok (setV b (9 * y + x) v)
      else Except.error ()

/-- Loader loop over the characters of one line, x counting from the given
start index. -/
def loadRowGo (y : Nat) : Nat → List Char → Except Unit Board → Except Unit Board
  | _, [], acc => acc
  | x, c :: cs, acc => loadRowGo y (x + 1) cs (loadChar acc y x c)

/-- Loader loop over the lines of the file, y counting from the given start
index. -/
def loadGo : Nat → List (List Char) → Except Unit Board → Except Unit Board
  | _, [], acc => acc
  | y, r :: rs, acc => loadGo (y + 1) rs (loadRowGo y 0 r acc)

/-- Embeds the load handler of script.js: the board is cleared first, then
every digit-like character of line y at index x is written through
setValue(x, y, cell). -/
def loadSudoku (content : List (List Char)) : Except Unit Board :=
  loadGo 0 content (Except.ok emptyBoard)

/-- Slots targeted by the loader for one line, starting at character index x. -/
def rowDigitSlots (y : Nat) : Nat → List Char → List Nat
  | _, [] => []
  | x, c :: cs =>
    (if (jsNumericVal c).isSome then [9 * y + x] else []) ++ rowDigitSlots y (x + 1) cs

/-- Slots targeted by the loader for all lines, starting at line index y. -/
def digitSlotsGo : Nat → List (List Char) → List Nat
  | _, [] => []
  | y, r :: rs => rowDigitSlots y 0 r ++ digitSlotsGo (y + 1) rs

/-- All board slots 9*y+x of digit-like characters of the input. -/
def digitSlots (content : List (List Char)) : List Nat := digitSlotsGo 0 content

/-- Concrete board with four empty cells at keys 1, 3, 28 and 30, whose search
backtracks once and then revisits candidate lists that an undo cycle has
reordered. All other cells are givens shaped so that the initial candidate
lists are key 1 : [1, 3], key 3 : [1, 2], key 28 : [1, 4], key 30 : [2, 4]. -/
def reorderBoard : Board :=
  [5, 0, 4, 0, 6, 7, 8, 9, 5,
   2, 5, 6, 5, 3, 6, 9, 9, 9,
   7, 8, 9, 7, 8, 9, 9, 9, 9,
   5, 0, 6, 0, 3, 7, 8, 9, 5,
   7, 2, 8, 6, 1, 5, 9, 9, 9,
   9, 6, 3, 8, 7, 9, 9, 9, 9,
   9, 7, 9, 9, 9, 9, 9, 9, 9,
   9, 9, 9, 3, 9, 9, 9, 9, 9,
   9, 5, 9, 5, 9, 9, 9, 9, 9]

/-- The mapping state reached by the search on reorderBoard after the failed
first branch: the re-set key 30 now leads iteration order and the undo cycles
have left values appended out of ascending order. -/
def reorderTrap : CMap := [(30, [4, 2]), (28, [4, 1]), (3, [2, 1])]

/-- Concrete board whose row 0 holds two given 5s at cells (1,0) and (2,0),
with every other cell empty, cell (0,0) in particular. -/
def duplicateGivensBoard : Board :=
  [0, 5, 5, 0, 0, 0, 0, 0, 0,
   0, 0, 0, 0, 0, 0, 0, 0, 0,
   0, 0, 0, 0, 0, 0, 0, 0, 0,
   0, 0, 0, 0, 0, 0, 0, 0, 0,
   0, 0, 0, 0, 0, 0, 0, 0, 0,
   0, 0, 0, 0, 0, 0, 0, 0, 0,
   0, 0, 0, 0, 0, 0, 0, 0, 0,
   0, 0, 0, 0, 0, 0, 0, 0, 0,
   0, 0, 0, 0, 0, 0, 0, 0, 0]

/-- Concrete board on which the solve attempt fails at once: cell (1,0) is
empty but its row, column and box already hold all nine digits, so its
candidate list is empty and the search returns false after one selection. -/
def quickFailBoard : Board :=
  [1, 0, 2, 3, 4, 5, 6, 7, 8,
   0, 9, 0, 0, 0, 0, 0, 0, 0,
   0, 0, 0, 0, 0, 0, 0, 0, 0,
   0, 0, 0, 0, 0, 0, 0, 0, 0,
   0, 0, 0, 0, 0, 0, 0, 0, 0,
   0, 0, 0, 0, 0, 0, 0, 0, 0,
   0, 0, 0, 0, 0, 0, 0, 0, 0,
   0, 0, 0, 0, 0, 0, 0, 0, 0,
   0, 0, 0, 0, 0, 0, 0, 0, 0]

/-- Characters of the line 53..7.... of the spec's Scenario D. -/
def scenarioDLine : List Char :=
  ['5', '3', '.', '.', '7', '.', '.', '.', '.']

/-- Distinctness invariant of the candidate mapping: every bound candidate
list is free of duplicates. -/
def AllNodup (m : CMap) : Prop := ∀ k, ((mapGet m k).getD []).Nodup

/-- Two mappings bind the same keys, and bind each key to candidate lists
with the same elements counted with multiplicity (possibly in a different
order). -/
def MapsPerm (m₁ m₂ : CMap) : Prop :=
  ∀ j, (mapGet m₁ j).isSome = (mapGet m₂ j).isSome ∧
    ((mapGet m₁ j).getD []).Perm ((mapGet m₂ j).getD [])

/-- Value of an Except computation, with a default for the error case. -/
def exceptGetD (e : Except Unit Board) (d : Board) : Board :=
  match e with
  | Except.ok b => b
  | Except.error _ => d

/-! ### Generic fold invariance -/

theorem foldl_preserve {α β : Type} (P : β → Prop) (g : β → α → β)
    (hg : ∀ b a, P b → P (g b a)) (l : List α) : ∀ b : β, P b → P (l.foldl g b) := by
  induction l with
  | nil => intro b hb; simpa using hb
  | cons a t ih => intro b hb; simpa using ih (g b a) (hg b a hb)

/-! ### Basic lemmas about the association-list embedding of JS Map -/

theorem mapGet_mapModify (m : CMap) (k : Nat) (f : List Nat → List Nat) (j : Nat) :
    mapGet (mapModify m k f) j = if j = k then (mapGet m j).map f else mapGet m j := by
  induction m with
  | nil => simp [mapModify, mapGet]
  | cons p t ih =>
    by_cases hp : p.1 = k
    · by_cases hj : p.1 = j
      · have hjk : j = k := by rw [← hj, hp]
        simp [mapModify, mapGet, hp, hj, hjk]
      · have hjk : ¬ j = k := fun h => hj (by rw [hp, h])
        have hkj : ¬ k = j := fun h => hjk h.symm
        simp [mapModify, mapGet, hp, hj, hjk, hkj]
    · by_cases hj : p.1 = j
      · have hjk : ¬ j = k := fun h => hp (by rw [hj, h])
        simp [mapModify, mapGet, hp, hj, hjk]
      · simp [mapModify, mapGet, hp, hj, ih]

theorem mapGet_mapDelete (m : CMap) (k j : Nat) :
    mapGet (mapDelete m k) j = if j = k then none else mapGet m j := by
  induction m with
  | nil => simp [mapDelete, mapGet]
  | cons p t ih =>
    by_cases hp : p.1 = k
    · by_cases hjk : j = k
      · subst hjk
        simp [mapDelete, hp, ih]
      · have hj : ¬ p.1 = j := fun h => hjk (by rw [← h, hp])
        have hkj : ¬ k = j := fun h => hjk h.symm
        simp [mapDelete, mapGet, hp, hj, hjk, hkj, ih]
    · by_cases hj : p.1 = j
      · have hjk : ¬ j = k := fun h => hp (by rw [hj, h])
        simp [mapDelete, mapGet, hp, hj, hjk]
      · simp [mapDelete, mapGet, hp, hj, ih]

theorem mapGet_mapSet (m : CMap) (k : Nat) (v : List Nat) (j : Nat) :
    mapGet (mapSet m k v) j = if j = k then some v else mapGet m j := by
  induction m with
  | nil =>
    by_cases hj : j = k
    · simp [mapSet, mapGet, hj]
    · have : ¬ k = j := fun h => hj h.symm
      simp [mapSet, mapGet, hj, this]
  | cons p t ih =>
    by_cases hp : p.1 = k
    · by_cases hj : j = k
      · simp [mapSet, mapGet, hp, hj]
      · have hkj : ¬ k = j := fun h => hj h.symm
        have hpj : ¬ p.1 = j := fun h => hj (by rw [← h, hp])
        simp [mapSet, mapGet, hp, hj, hkj, hpj]
    · by_cases hj : p.1 = j
      · have hjk : ¬ j = k := fun h => hp (by rw [hj, h])
        simp [mapSet, mapGet, hp, hj, hjk]
      · simp [mapSet, mapGet, hp, hj, ih]

theorem keysOf_mapModify (m : CMap) (k : Nat) (f : List Nat → List Nat) :
    keysOf (mapModify m k f) = keysOf m := by
  induction m with
  | nil => rfl
  | cons p t ih =>
    by_cases hp : p.1 = k
    · simp [mapModify, keysOf, hp]
    · simp only [mapModify, if_neg hp, keysOf, List.map_cons]
      exact congrArg (List.cons p.1) (by simpa [keysOf] using ih)

theorem mapGet_eq_none_iff (m : CMap) (j : Nat) :
    mapGet m j = none ↔ j ∉ keysOf m := by
  induction m with
  | nil => simp [mapGet, keysOf]
  | cons p t ih =>
    by_cases hp : p.1 = j
    · simp [mapGet, keysOf, hp]
    · simp [mapGet, keysOf, hp, Ne.symm hp, ih]

theorem mapGet_isSome_iff (m : CMap) (j : Nat) :
    (mapGet m j).isSome = true ↔ j ∈ keysOf m := by
  constructor
  · intro h
    by_contra hj
    rw [(mapGet_eq_none_iff m j).2 hj] at h
    simp at h
  · intro h
    cases hm : mapGet m j with
    | none => exact absurd h (by simpa using (mapGet_eq_none_iff m j).1 hm)
    | some l => rfl

/-! ### Concrete evaluations of the solver and loader -/

/-- C1: refuted on the code by evaluation. On the all-empty board the solve
attempt returns true immediately while every cell of the Board is still
empty: findNextCell selects cell key 0, and the JS guard !cellKey treats the
number 0 like null, taking the branch whose comment claims the sudoku is
complete. The returned mapping and board are the untouched inputs, and cell
(0,0) is empty in the final board, so the Board is neither fully assigned nor
does any row contain each digit once. -/
theorem c1_solve_true_board_not_assigned :
    (solveRun emptyBoard).map (fun r => (r.1, getV r.2.2 0)) = some (true, 0) := by decide

/-- C9: refuted on the code by evaluation. On a board whose only givens are
two 5s in row 0 at cells (1,0) and (2,0), the claim demands that solve
returns false; instead the code returns true at once (cell (0,0) is empty, so
findNextCell returns key 0 and the !cellKey guard fires), leaving the
duplicate givens in place and the rest of the board empty. -/
theorem c9_duplicate_givens_solve_true :
    (solveRun duplicateGivensBoard).map (fun r => (r.1, getV r.2.2 0, getV r.2.2 1, getV r.2.2 2)) =
      some (true, 0, 5, 5) := by decide

/-- C2 counterexample: the pair applyAssignment-undoAssignment does not
restore candidate lists exactly. The mapping below is reachable: it is
exactly the argument of the first updateOptions call of the solve attempt on
reorderBoard (the search selects cell key 1, removes it, and assigns value 1
at (x,y) = (1,0)). After updateOptions followed by the undo push, cell key
3 holds [2, 1] instead of its original list [1, 2]: the candidate set is
intact but the list is not restored exactly. -/
theorem c2_apply_undo_order_lost :
    mapDelete (getAllCellOptions reorderBoard) 1 = [(3, [1, 2]), (28, [1, 4]), (30, [2, 4])] ∧
    mapGet (undoAssignment (updateOptions [(3, [1, 2]), (28, [1, 4]), (30, [2, 4])] 1 0 1).1
        (updateOptions [(3, [1, 2]), (28, [1, 4]), (30, [2, 4])] 1 0 1).2 1) 3 = some [2, 1] ∧
    mapGet [(3, [1, 2]), (28, [1, 4]), (30, [2, 4])] 3 = some [1, 2] ∧
    ([2, 1] : List Nat) ≠ [1, 2] := by decide

/-- C3 counterexample: a reachable solveStep invocation tries candidate
values in descending order. Running the solve attempt on reorderBoard, the
trace of selection events contains the invocation that selects cell key 30
with candidate list [4, 2]: value 4 is tried before value 2. The list became
unsorted because an earlier undo cycle pushed the restored value 2 to the end
of the list. -/
theorem c3_unsorted_options_reachable :
    (reorderTrap, 30, [4, 2]) ∈ solveTrace reorderBoard ∧ ascending [4, 2] = false := by decide

/-- C4 counterexample: on a reachable mapping, findNextCell does not break
ties in favor of the smaller cell key. The mapping reorderTrap occurs in the
trace of the solve attempt on reorderBoard; all three of its cells have
candidate lists of the minimal length 2, the smallest key among them is 3,
yet findNextCell returns key 30, because the failed branch re-inserted key 30
at the head position of the Map iteration order. -/
theorem c4_tie_break_follows_insertion_not_row_major :
    (reorderTrap, 30, [4, 2]) ∈ solveTrace reorderBoard ∧
    findNextCell reorderTrap = some 30 ∧
    (3, [2, 1]) ∈ reorderTrap ∧
    reorderTrap.all (fun p => decide (2 ≤ p.2.length)) = true ∧
    (3 : Nat) < 30 := by decide

/-- C8 counterexample: loading the line 53..7.... puts the digit 7 into
Board(4,0), not Board(5,0) as the claim states; slot 5 of row 0 is left
empty. The character 7 sits at character index 4 of the line (after two
placeholder dots), so setValue(4, 0, 7) is the call the loader makes. -/
theorem c8_seven_not_at_column_five :
    (loadSudoku [scenarioDLine]).map (fun b => (getV b 5, getV b 4)) = Except.ok (0, 7) := by
  rfl

/-- C8 amended: loading 53..7.... as row 0 sets Board(0,0)=5, Board(1,0)=3,
leaves Board(2,0) and Board(3,0) empty, sets Board(4,0)=7, and leaves the
rest of row 0 (and all other rows) empty. -/
theorem c8_scenario_d_loaded_row :
    loadSudoku [scenarioDLine] =
      Except.ok ([5, 3, 0, 0, 7, 0, 0, 0, 0] ++ List.replicate 72 0) := by rfl

/-- C7 counterexample: digit characters outside the 9-column range are not
ignored. A digit at character index 9 of line 0 is written to slot 9*0+9 = 9,
which is Board cell (0,1) of the next row, so it does change a Board cell;
and a digit in line index 9 targets slot 81, an out-of-range write on the
81-element cells array, which fails instead of being ignored. -/
theorem c7_digit_beyond_column_nine_writes_cell :
    (loadSudoku [['.', '.', '.', '.', '.', '.', '.', '.', '.', '5']]).map
        (fun b => getV b 9) = Except.ok 5 ∧
    loadSudoku (List.replicate 9 ([] : List Char) ++ [['5']]) = Except.error () := by
  exact ⟨rfl, rfl⟩

/-! ### Per-key effect of updateOptions and undoAssignment -/

theorem removeStep_changes (v : Nat) (m : CMap) (c : List Nat) (k : Nat) :
    removeStep v (m, c) k = ((removeStep v (m, []) k).1, c ++ (removeStep v (m, []) k).2) := by
  unfold removeStep
  cases mapGet m k with
  | none => simp
  | some l => by_cases hv : v ∈ l <;> simp [hv]

theorem updateFold_split (v : Nat) (ks : List Nat) :
    ∀ (m : CMap) (c : List Nat),
      (ks.foldl (removeStep v) (m, c)).1 = (ks.foldl (removeStep v) (m, [])).1 ∧
      (ks.foldl (removeStep v) (m, c)).2 = c ++ (ks.foldl (removeStep v) (m, [])).2 := by
  induction ks with
  | nil => intro m c; simp
  | cons k t ih =>
    intro m c
    rcases hR : removeStep v (m, []) k with ⟨R1, R2⟩
    have hc : removeStep v (m, c) k = (R1, c ++ R2) := by
      rw [removeStep_changes v m c k, hR]
    simp only [List.foldl_cons, hc, hR]
    refine ⟨((ih R1 (c ++ R2)).1).trans ((ih R1 R2).1).symm, ?_⟩
    rw [(ih R1 (c ++ R2)).2, (ih R1 R2).2, List.append_assoc]

theorem mapGet_undoAssignment (ch : List Nat) (v : Nat) :
    ∀ (m : CMap) (j : Nat),
      mapGet (undoAssignment m ch v) j =
        (mapGet m j).map (fun l => l ++ List.replicate (ch.count j) v) := by
  induction ch with
  | nil =>
    intro m j
    show mapGet m j = _
    cases mapGet m j <;> simp
  | cons a t ih =>
    intro m j
    have hstep : undoAssignment m (a :: t) v =
        undoAssignment (mapModify m a (fun l => l ++ [v])) t v := rfl
    rw [hstep, ih, mapGet_mapModify]
    by_cases hj : j = a
    · subst hj
      cases mapGet m j <;>
        simp [List.count_cons, List.replicate_succ, List.append_assoc]
    · have hcnt : (a :: t).count j = t.count j := by
        simp [List.count_cons, hj]
      cases mapGet m j <;> simp [hj, hcnt]

theorem keysOf_removeStep (v : Nat) (acc : CMap × List Nat) (k : Nat) :
    keysOf (removeStep v acc k).1 = keysOf acc.1 := by
  unfold removeStep
  cases mapGet acc.1 k with
  | none => rfl
  | some l => by_cases hv : v ∈ l <;> simp [hv, keysOf_mapModify]

theorem keysOf_updateFold (v : Nat) (ks : List Nat) :
    ∀ acc : CMap × List Nat, keysOf (ks.foldl (removeStep v) acc).1 = keysOf acc.1 := by
  induction ks with
  | nil => intro acc; rfl
  | cons k t ih => intro acc; rw [List.foldl_cons, ih, keysOf_removeStep]

theorem keysOf_undoAssignment (ch : List Nat) (v : Nat) :
    ∀ m : CMap, keysOf (undoAssignment m ch v) = keysOf m := by
  induction ch with
  | nil => intro m; rfl
  | cons a t ih =>
    intro m
    have hstep : undoAssignment m (a :: t) v =
        undoAssignment (mapModify m a (fun l => l ++ [v])) t v := rfl
    rw [hstep, ih, keysOf_mapModify]

theorem updateFold_perm (v : Nat) (ks : List Nat) :
    ∀ (m : CMap) (j : Nat),
      ((mapGet (ks.foldl (removeStep v) (m, [])).1 j).getD [] ++
        List.replicate ((ks.foldl (removeStep v) (m, [])).2.count j) v).Perm
        ((mapGet m j).getD []) := by
  induction ks with
  | nil => intro m j; simp
  | cons k t ih =>
    intro m j
    simp only [List.foldl_cons]
    by_cases hstep : ∃ l, mapGet m k = some l ∧ v ∈ l
    · rcases hstep with ⟨l, hg, hv⟩
      have hR : removeStep v (m, []) k = (mapModify m k (fun u => u.erase v), [k]) := by
        unfold removeStep; rw [hg]; simp [hv]
      rw [hR]
      have hsplit := updateFold_split v t (mapModify m k (fun u => u.erase v)) [k]
      rw [hsplit.1, hsplit.2]
      set G1 := (t.foldl (removeStep v) (mapModify m k (fun u => u.erase v), [])).1 with hG1
      set G2 := (t.foldl (removeStep v) (mapModify m k (fun u => u.erase v), [])).2 with hG2
      have hih := ih (mapModify m k (fun u => u.erase v)) j
      rw [← hG1, ← hG2] at hih
      by_cases hj : j = k
      · subst hj
        have hcount : ([j] ++ G2).count j = G2.count j + 1 := by
          simp [List.count_cons]
        rw [hcount]
        have hmod : (mapGet (mapModify m j (fun u => u.erase v)) j).getD [] = l.erase v := by
          rw [mapGet_mapModify]; simp [hg]
        rw [hmod] at hih
        have h1 : ((mapGet G1 j).getD [] ++ List.replicate (G2.count j + 1) v).Perm
            ((l.erase v) ++ [v]) := by
          rw [List.replicate_succ', ← List.append_assoc]
          exact hih.append_right [v]
        refine h1.trans ?_
        refine (List.perm_append_singleton v (l.erase v)).trans ?_
        rw [show (mapGet m j).getD [] = l by rw [hg]; rfl]
        exact (List.perm_cons_erase hv).symm
      · have hcount : ([k] ++ G2).count j = G2.count j := by
          simp [List.count_cons, hj]
        rw [hcount]
        have hmod : mapGet (mapModify m k (fun u => u.erase v)) j = mapGet m j := by
          rw [mapGet_mapModify]; simp [hj]
        rw [hmod] at hih
        exact hih
    · have hR : removeStep v (m, []) k = (m, []) := by
        unfold removeStep
        cases hg : mapGet m k with
        | none => rfl
        | some l =>
          have hv : v ∉ l := fun hvl => hstep ⟨l, hg, hvl⟩
          simp [hv]
      rw [hR]
      exact ih m j

theorem updateOptions_undo_keysOf (m : CMap) (x y v : Nat) :
    keysOf (undoAssignment (updateOptions m x y v).1 (updateOptions m x y v).2 v) = keysOf m := by
  rw [keysOf_undoAssignment]
  exact keysOf_updateFold v (updateKeys x y) (m, [])

theorem updateOptions_undo_perm (m : CMap) (x y v : Nat) (j : Nat) :
    ((mapGet (undoAssignment (updateOptions m x y v).1
        (updateOptions m x y v).2 v) j).getD []).Perm ((mapGet m j).getD []) := by
  rw [mapGet_undoAssignment]
  cases hg : mapGet (updateOptions m x y v).1 j with
  | none =>
    have hkeys : keysOf (updateOptions m x y v).1 = keysOf m :=
      keysOf_updateFold v (updateKeys x y) (m, [])
    have hnone : mapGet m j = none := by
      rw [mapGet_eq_none_iff]
      rw [mapGet_eq_none_iff, hkeys] at hg
      exact hg
    simp [hnone]
  | some l =>
    have h := updateFold_perm v (updateKeys x y) m j
    rw [show (updateKeys x y).foldl (removeStep v) (m, []) = updateOptions m x y v from rfl]
      at h
    rw [hg] at h
    simpa using h

/-- C2 amended: applying updateOptions and then the undo push with the same
arguments restores the candidate mapping up to the order inside each list:
the keys and their iteration order are unchanged, and every cell's candidate
list afterwards is a permutation of its list before — no candidate is lost or
duplicated — but the list itself is not always restored exactly, because the
undo appends the value at the end of each affected list. -/
theorem c2_apply_undo_restores_counts (m : CMap) (x y v : Nat) :
    keysOf (undoAssignment (updateOptions m x y v).1 (updateOptions m x y v).2 v) = keysOf m ∧
    ∀ j, ((mapGet (undoAssignment (updateOptions m x y v).1
        (updateOptions m x y v).2 v) j).getD []).Perm ((mapGet m j).getD []) :=
  ⟨updateOptions_undo_keysOf m x y v, updateOptions_undo_perm m x y v⟩

/-! ### Distinctness and order of candidate lists -/

theorem ascending_of_pairwise {l : List Nat} (h : l.Pairwise (fun a b => a < b)) :
    ascending l = true := by
  induction l with
  | nil => rfl
  | cons a t ih =>
    cases t with
    | nil => rfl
    | cons b u =>
      rcases List.pairwise_cons.1 h with ⟨hab, ht⟩
      have hb : a < b := hab b (by simp)
      show (decide (a < b) && ascending (b :: u)) = true
      rw [decide_eq_true hb, Bool.true_and]
      exact ih ht

theorem getCellOptions_pairwise (b : Board) (x y : Nat) :
    (getCellOptions b x y).Pairwise (fun a c => a < c) := by
  have hbase : (((List.range 9).map (fun i => i + 1)) : List Nat).Pairwise
      (fun a c => a < c) := by decide
  exact List.Pairwise.sublist (List.filter_sublist _) hbase

theorem getCellOptions_nodup (b : Board) (x y : Nat) : (getCellOptions b x y).Nodup :=
  (getCellOptions_pairwise b x y).imp (fun h => Nat.ne_of_lt h)

/-- C3 amended: the candidate values of the selected cell are tried in the
order of the cell's current candidate list. Freshly computed lists are in
ascending order, so the first visit to any cell tries values ascending; but
an undo cycle re-appends the restored value at the end of the list, and the
trace of the solve attempt on reorderBoard contains an invocation whose
candidate list is no longer ascending, so the tried order is then descending
for that cell. -/
theorem c3_try_order_follows_list :
    (∀ b x y, ascending (getCellOptions b x y) = true) ∧
    (solveTrace reorderBoard).any (fun e => !(ascending e.2.2)) = true := by
  refine ⟨fun b x y => ascending_of_pairwise (getCellOptions_pairwise b x y), ?_⟩
  decide

theorem mapGet_mem {m : CMap} {k : Nat} {l : List Nat} (h : mapGet m k = some l) :
    (k, l) ∈ m := by
  induction m with
  | nil => simp [mapGet] at h
  | cons p t ih =>
    by_cases hp : p.1 = k
    · rw [mapGet, if_pos hp] at h
      have hpl : p = (k, l) := Prod.ext hp (Option.some.inj h)
      rw [hpl]
      exact List.mem_cons_self _ _
    · rw [mapGet, if_neg hp] at h
      exact List.mem_cons_of_mem p (ih h)

theorem allNodup_of_forall_mem (m : CMap) (h : ∀ p ∈ m, p.2.Nodup) : AllNodup m := by
  intro k
  cases hg : mapGet m k with
  | none => simp
  | some l => simpa using h (k, l) (mapGet_mem hg)

theorem allNodup_mapSet {m : CMap} {l : List Nat} (k : Nat)
    (hm : AllNodup m) (hl : l.Nodup) : AllNodup (mapSet m k l) := by
  intro j
  rw [mapGet_mapSet]
  by_cases hj : j = k
  · simpa [hj] using hl
  · simpa [hj] using hm j

theorem allNodup_mapDelete {m : CMap} (k : Nat) (hm : AllNodup m) :
    AllNodup (mapDelete m k) := by
  intro j
  rw [mapGet_mapDelete]
  by_cases hj : j = k
  · simp [hj]
  · simpa [hj] using hm j

theorem getAllCellOptions_allNodup (b : Board) : AllNodup (getAllCellOptions b) := by
  unfold getAllCellOptions
  refine foldl_preserve AllNodup _ ?_ (List.range 9) [] ?_
  · intro m y hm
    refine foldl_preserve AllNodup _ ?_ (List.range 9) m hm
    intro m1 x hm1
    by_cases hx : getValue b x y = 0
    · simpa [hx] using allNodup_mapSet (9 * y + x) hm1 (getCellOptions_nodup b x y)
    · simpa [hx] using hm1
  · intro k
    simp [mapGet]

theorem removeStep_eq (v : Nat) (m : CMap) (c : List Nat) (k : Nat) :
    removeStep v (m, c) k = match mapGet m k with
      | some l => if v ∈ l then (mapModify m k (fun u => u.erase v), c ++ [k]) else (m, c)
      | none => (m, c) := rfl

theorem removeStep_nodup_inv (v : Nat) (m : CMap) (c : List Nat) (k : Nat)
    (hm : AllNodup m) (hc : c.Nodup) (hcv : ∀ k1 ∈ c, v ∉ (mapGet m k1).getD []) :
    AllNodup (removeStep v (m, c) k).1 ∧ (removeStep v (m, c) k).2.Nodup ∧
      (∀ k1 ∈ (removeStep v (m, c) k).2,
        v ∉ (mapGet (removeStep v (m, c) k).1 k1).getD []) := by
  cases hg : mapGet m k with
  | none =>
    have hRS : removeStep v (m, c) k = (m, c) := by rw [removeStep_eq v m c k, hg]
    rw [hRS]
    exact ⟨hm, hc, hcv⟩
  | some l =>
    have hl : l.Nodup := by have := hm k; rwa [hg] at this
    by_cases hv : v ∈ l
    · have hRS : removeStep v (m, c) k =
          (mapModify m k (fun u => u.erase v), c ++ [k]) := by
        rw [removeStep_eq v m c k, hg]
        exact if_pos hv
      have hkc : k ∉ c := fun hkc => (hcv k hkc) (by rw [hg]; exact hv)
      rw [hRS]
      refine ⟨?_, ?_, ?_⟩
      · intro j
        rw [mapGet_mapModify]
        by_cases hj : j = k
        · subst hj
          rw [hg]
          simpa using hl.erase v
        · simpa [hj] using hm j
      · show (c ++ [k]).Nodup
        rw [(List.perm_append_singleton k c).nodup_iff]
        exact List.nodup_cons.2 ⟨hkc, hc⟩
      · intro k1 hk1
        rw [mapGet_mapModify]
        rcases List.mem_append.1 hk1 with h1 | h1
        · have hne : ¬ k1 = k := fun h => hkc (h ▸ h1)
          simpa [hne] using hcv k1 h1
        · have hk1k : k1 = k := by simpa using h1
          subst hk1k
          rw [if_pos rfl, hg]
          simpa using hl.not_mem_erase
    · have hRS : removeStep v (m, c) k = (m, c) := by
        rw [removeStep_eq v m c k, hg]
        exact if_neg hv
      rw [hRS]
      exact ⟨hm, hc, hcv⟩

theorem updateFold_nodup (v : Nat) (ks : List Nat) :
    ∀ (m : CMap) (c : List Nat), AllNodup m → c.Nodup →
      (∀ k1 ∈ c, v ∉ (mapGet m k1).getD []) →
      AllNodup (ks.foldl (removeStep v) (m, c)).1 ∧
        (ks.foldl (removeStep v) (m, c)).2.Nodup ∧
        (∀ k1 ∈ (ks.foldl (removeStep v) (m, c)).2,
          v ∉ (mapGet (ks.foldl (removeStep v) (m, c)).1 k1).getD []) := by
  induction ks with
  | nil => intro m c hm hc hcv; exact ⟨hm, hc, hcv⟩
  | cons k t ih =>
    intro m c hm hc hcv
    simp only [List.foldl_cons]
    rcases hR : removeStep v (m, c) k with ⟨m1, c1⟩
    have h := removeStep_nodup_inv v m c k hm hc hcv
    rw [hR] at h
    exact ih m1 c1 h.1 h.2.1 h.2.2

theorem updateOptions_nodup (m : CMap) (x y v : Nat) (hm : AllNodup m) :
    AllNodup (updateOptions m x y v).1 ∧ (updateOptions m x y v).2.Nodup ∧
      (∀ k1 ∈ (updateOptions m x y v).2,
        v ∉ (mapGet (updateOptions m x y v).1 k1).getD []) :=
  updateFold_nodup v (updateKeys x y) m [] hm List.nodup_nil (by simp)

/-! ### Mappings related up to per-key permutation -/

theorem mapsPerm_refl (m : CMap) : MapsPerm m m := fun _ => ⟨rfl, List.Perm.refl _⟩

theorem mapsPerm_trans {m1 m2 m3 : CMap} (h1 : MapsPerm m1 m2) (h2 : MapsPerm m2 m3) :
    MapsPerm m1 m3 :=
  fun j => ⟨(h1 j).1.trans (h2 j).1, (h1 j).2.trans (h2 j).2⟩

theorem mapGet_isSome_eq_of_keysOf_eq {m1 m2 : CMap} (h : keysOf m1 = keysOf m2) (j : Nat) :
    (mapGet m1 j).isSome = (mapGet m2 j).isSome := by
  by_cases hj : j ∈ keysOf m2
  · rw [(mapGet_isSome_iff m2 j).2 hj, (mapGet_isSome_iff m1 j).2 (h ▸ hj)]
  · have h1 : mapGet m1 j = none := (mapGet_eq_none_iff m1 j).2 (by rw [h]; exact hj)
    have h2 : mapGet m2 j = none := (mapGet_eq_none_iff m2 j).2 hj
    rw [h1, h2]

theorem undo_mapsPerm_of_update (m : CMap) (x y v : Nat) (m3 : CMap)
    (hm3 : MapsPerm m3 (updateOptions m x y v).1) :
    MapsPerm (undoAssignment m3 (updateOptions m x y v).2 v) m := by
  have hkeys : keysOf (updateOptions m x y v).1 = keysOf m :=
    keysOf_updateFold v (updateKeys x y) (m, [])
  intro j
  constructor
  · rw [mapGet_undoAssignment]
    have hmap : ∀ o : Option (List Nat), ∀ g : List Nat → List Nat,
        (o.map g).isSome = o.isSome := by
      intro o g; cases o <;> rfl
    rw [hmap, (hm3 j).1]
    exact mapGet_isSome_eq_of_keysOf_eq hkeys j
  · rw [mapGet_undoAssignment]
    cases ho : mapGet m3 j with
    | none =>
      have hupd : mapGet (updateOptions m x y v).1 j = none := by
        have := (hm3 j).1
        rw [ho] at this
        cases hu : mapGet (updateOptions m x y v).1 j with
        | none => rfl
        | some l => rw [hu] at this; simp at this
      have hm0 : mapGet m j = none := by
        rw [mapGet_eq_none_iff]
        rw [mapGet_eq_none_iff, hkeys] at hupd
        exact hupd
      simp [hm0]
    | some l3 =>
      have hperm : l3.Perm ((mapGet (updateOptions m x y v).1 j).getD []) := by
        have := (hm3 j).2
        rw [ho] at this
        simpa using this
      have hmain := updateFold_perm v (updateKeys x y) m j
      rw [show (updateKeys x y).foldl (removeStep v) (m, []) = updateOptions m x y v from
        rfl] at hmain
      show (l3 ++ List.replicate ((updateOptions m x y v).2.count j) v).Perm
        ((mapGet m j).getD [])
      exact ((hperm.append_right _).trans hmain)

/-! ### Membership facts about findNextCell -/

theorem keysOf_cons (p : Nat × List Nat) (t : CMap) : keysOf (p :: t) = p.1 :: keysOf t := rfl

theorem findNextCellGo_mem :
    ∀ (m : CMap) (best minLen : Option Nat) (k : Nat),
      findNextCellGo m best minLen = some k → best = some k ∨ k ∈ keysOf m := by
  intro m
  induction m with
  | nil => intro best minLen k h; exact Or.inl h
  | cons p t ih =>
    intro best minLen k h
    rw [findNextCellGo] at h
    cases hlt : ltMin p.2.length minLen with
    | true =>
      rw [hlt, if_pos rfl] at h
      rcases ih _ _ _ h with h1 | h1
      · refine Or.inr ?_
        rw [keysOf_cons, Option.some.inj h1]
        exact List.mem_cons_self _ _
      · refine Or.inr ?_
        rw [keysOf_cons]
        exact List.mem_cons_of_mem _ h1
    | false =>
      rw [hlt, if_neg Bool.false_ne_true] at h
      rcases ih _ _ _ h with h1 | h1
      · exact Or.inl h1
      · refine Or.inr ?_
        rw [keysOf_cons]
        exact List.mem_cons_of_mem _ h1

theorem findNextCell_mem {m : CMap} {k : Nat} (h : findNextCell m = some k) :
    k ∈ keysOf m := by
  rcases findNextCellGo_mem m none none k h with h1 | h1
  · exact absurd h1 (by simp)
  · exact h1

theorem findNextCell_isSome {m : CMap} {k : Nat} (h : findNextCell m = some k) :
    (mapGet m k).isSome = true :=
  (mapGet_isSome_iff m k).2 (findNextCell_mem h)

/-! ### Unfolding equations and inversion principles for the search -/

theorem tryVals_nil_eq (f : CMap → Board → Option (Bool × CMap × Board)) (x y : Nat)
    (m : CMap) (b : Board) : tryVals f x y [] m b = some (false, m, b) := rfl

theorem tryVals_cons_eq (f : CMap → Board → Option (Bool × CMap × Board)) (x y v : Nat)
    (rest : List Nat) (m : CMap) (b : Board) :
    tryVals f x y (v :: rest) m b =
      match f (updateOptions m x y v).1 (setValue b x y v) with
      | none => none
      | some (true, m3, b3) => some (true, m3, b3)
      | some (false, m3, b3) =>
        tryVals f x y rest (undoAssignment m3 (updateOptions m x y v).2 v) b3 := rfl

theorem solveStep_zero_eq (m : CMap) (b : Board) : solveStep 0 m b = none := rfl

theorem solveStep_succ_eq (fuel : Nat) (m : CMap) (b : Board) :
    solveStep (fuel + 1) m b = match findNextCell m with
      | none => some (true, m, b)
      | some 0 => some (true, m, b)
      | some k =>
        match tryVals (solveStep fuel) (k % 9) (k / 9) ((mapGet m k).getD [])
            (mapDelete m k) b with
        | none => none
        | some (true, m2, b2) => some (true, m2, b2)
        | some (false, m2, b2) =>
          some (false, mapSet m2 k ((mapGet m k).getD []),
            setValue b2 (k % 9) (k / 9) 0) := rfl

theorem tryVals_cons_inv (f : CMap → Board → Option (Bool × CMap × Board))
    (x y v : Nat) (rest : List Nat) (m : CMap) (b : Board)
    (r : Bool × CMap × Board) (hr : tryVals f x y (v :: rest) m b = some r) :
    (∃ m3 b3, f (updateOptions m x y v).1 (setValue b x y v) = some (true, m3, b3) ∧
      r = (true, m3, b3)) ∨
    (∃ m3 b3, f (updateOptions m x y v).1 (setValue b x y v) = some (false, m3, b3) ∧
      tryVals f x y rest (undoAssignment m3 (updateOptions m x y v).2 v) b3 = some r) := by
  rw [tryVals_cons_eq] at hr
  cases hfc : f (updateOptions m x y v).1 (setValue b x y v) with
  | none => rw [hfc] at hr; exact Option.noConfusion hr
  | some r3 =>
    rw [hfc] at hr
    rcases r3 with ⟨res3, m3, b3⟩
    cases res3 with
    | true => exact Or.inl ⟨m3, b3, rfl, (Option.some.inj hr).symm⟩
    | false => exact Or.inr ⟨m3, b3, rfl, hr⟩

theorem solveStep_succ_inv (fuel : Nat) (m : CMap) (b : Board) (r : Bool × CMap × Board)
    (hr : solveStep (fuel + 1) m b = some r) :
    (findNextCell m = none ∧ r = (true, m, b)) ∨
    (findNextCell m = some 0 ∧ r = (true, m, b)) ∨
    (∃ k, findNextCell m = some k ∧ k ≠ 0 ∧
      ((∃ m2 b2, tryVals (solveStep fuel) (k % 9) (k / 9) ((mapGet m k).getD [])
          (mapDelete m k) b = some (true, m2, b2) ∧ r = (true, m2, b2)) ∨
       (∃ m2 b2, tryVals (solveStep fuel) (k % 9) (k / 9) ((mapGet m k).getD [])
          (mapDelete m k) b = some (false, m2, b2) ∧
          r = (false, mapSet m2 k ((mapGet m k).getD []),
            setValue b2 (k % 9) (k / 9) 0)))) := by
  rw [solveStep_succ_eq] at hr
  cases hfind : findNextCell m with
  | none =>
    rw [hfind] at hr
    exact Or.inl ⟨rfl, (Option.some.inj hr).symm⟩
  | some k =>
    rw [hfind] at hr
    cases k with
    | zero => exact Or.inr (Or.inl ⟨rfl, (Option.some.inj hr).symm⟩)
    | succ k0 =>
      have hr1 : (match tryVals (solveStep fuel) ((k0 + 1) % 9) ((k0 + 1) / 9)
          ((mapGet m (k0 + 1)).getD []) (mapDelete m (k0 + 1)) b with
        | none => (none : Option (Bool × CMap × Board))
        | some (true, m2, b2) => some (true, m2, b2)
        | some (false, m2, b2) =>
          some (false, mapSet m2 (k0 + 1) ((mapGet m (k0 + 1)).getD []),
            setValue b2 ((k0 + 1) % 9) ((k0 + 1) / 9) 0)) = some r := hr
      refine Or.inr (Or.inr ⟨k0 + 1, rfl, by simp, ?_⟩)
      cases htv : tryVals (solveStep fuel) ((k0 + 1) % 9) ((k0 + 1) / 9)
          ((mapGet m (k0 + 1)).getD []) (mapDelete m (k0 + 1)) b with
      | none => rw [htv] at hr1; exact Option.noConfusion hr1
      | some r2 =>
        rw [htv] at hr1
        rcases r2 with ⟨res2, m2, b2⟩
        cases res2 with
        | true => exact Or.inl ⟨m2, b2, rfl, (Option.some.inj hr1).symm⟩
        | false => exact Or.inr ⟨m2, b2, rfl, (Option.some.inj hr1).symm⟩

/-! ### A failed branch restores the mapping up to per-key permutation -/

theorem mapsPerm_mapSet_restore {m m2 : CMap} {k : Nat}
    (hk : (mapGet m k).isSome = true)
    (hperm2 : MapsPerm m2 (mapDelete m k)) :
    MapsPerm (mapSet m2 k ((mapGet m k).getD [])) m := by
  intro j
  by_cases hj : j = k
  · subst hj
    constructor
    · rw [mapGet_mapSet, if_pos rfl]
      exact hk.symm
    · rw [mapGet_mapSet, if_pos rfl]
      exact List.Perm.refl _
  · have h2 := hperm2 j
    rw [mapGet_mapDelete, if_neg hj] at h2
    constructor
    · rw [mapGet_mapSet, if_neg hj]; exact h2.1
    · rw [mapGet_mapSet, if_neg hj]; exact h2.2

theorem tryVals_false_mapsPerm
    (f : CMap → Board → Option (Bool × CMap × Board))
    (hf : ∀ m b r, f m b = some r → r.1 = false → MapsPerm r.2.1 m) :
    ∀ (vs : List Nat) (x y : Nat) (m : CMap) (b : Board) (r : Bool × CMap × Board),
      tryVals f x y vs m b = some r → r.1 = false → MapsPerm r.2.1 m := by
  intro vs
  induction vs with
  | nil =>
    intro x y m b r hr _
    have hr' : (false, m, b) = r := Option.some.inj hr
    rw [← hr']
    exact mapsPerm_refl m
  | cons v rest ih =>
    intro x y m b r hr hfalse
    rcases tryVals_cons_inv f x y v rest m b r hr with
      ⟨m3, b3, _, hrt⟩ | ⟨m3, b3, hfc, hrec⟩
    · rw [hrt] at hfalse
      exact absurd hfalse (by simp)
    · have hstep : MapsPerm m3 (updateOptions m x y v).1 := hf _ _ _ hfc rfl
      exact mapsPerm_trans (ih x y _ b3 r hrec hfalse)
        (undo_mapsPerm_of_update m x y v m3 hstep)

theorem solveStep_false_mapsPerm :
    ∀ (fuel : Nat) (m : CMap) (b : Board) (r : Bool × CMap × Board),
      solveStep fuel m b = some r → r.1 = false → MapsPerm r.2.1 m := by
  intro fuel
  induction fuel with
  | zero => intro m b r hr _; exact Option.noConfusion hr
  | succ n ih =>
    intro m b r hr hfalse
    rcases solveStep_succ_inv n m b r hr with
      ⟨_, hrt⟩ | ⟨_, hrt⟩ | ⟨k, hfind, _, ⟨m2, b2, _, hrt⟩ | ⟨m2, b2, htv, hrt⟩⟩
    · rw [hrt] at hfalse; exact absurd hfalse (by simp)
    · rw [hrt] at hfalse; exact absurd hfalse (by simp)
    · rw [hrt] at hfalse; exact absurd hfalse (by simp)
    · have hperm2 : MapsPerm m2 (mapDelete m k) :=
        tryVals_false_mapsPerm (solveStep n) ih ((mapGet m k).getD [])
          (k % 9) (k / 9) (mapDelete m k) b (false, m2, b2) htv rfl
      rw [hrt]
      exact mapsPerm_mapSet_restore (findNextCell_isSome hfind) hperm2

/-! ### Distinctness is an invariant of the whole search -/

theorem undo_allNodup_of_mapsPerm (m : CMap) (x y v : Nat) (m3 : CMap)
    (hm3 : AllNodup m3) (hch : (updateOptions m x y v).2.Nodup)
    (hnv : ∀ k1 ∈ (updateOptions m x y v).2,
      v ∉ (mapGet (updateOptions m x y v).1 k1).getD [])
    (hperm3 : MapsPerm m3 (updateOptions m x y v).1) :
    AllNodup (undoAssignment m3 (updateOptions m x y v).2 v) := by
  intro j
  rw [mapGet_undoAssignment]
  cases ho : mapGet m3 j with
  | none => simp
  | some l3 =>
    have hl3 : l3.Nodup := by have := hm3 j; rwa [ho] at this
    by_cases hjch : j ∈ (updateOptions m x y v).2
    · have hcnt : ((updateOptions m x y v).2.count j) = 1 :=
        List.count_eq_one_of_mem hch hjch
      have hv3 : v ∉ l3 := by
        have hp := (hperm3 j).2
        rw [ho] at hp
        intro hvmem
        exact hnv j hjch (hp.subset hvmem)
      rw [hcnt]
      show (l3 ++ List.replicate 1 v).Nodup
      rw [show List.replicate 1 v = [v] from rfl,
        (List.perm_append_singleton v l3).nodup_iff]
      exact List.nodup_cons.2 ⟨hv3, hl3⟩
    · have hcnt : ((updateOptions m x y v).2.count j) = 0 :=
        List.count_eq_zero.2 hjch
      rw [hcnt]
      show (l3 ++ List.replicate 0 v).Nodup
      simpa using hl3

theorem tryVals_allNodup
    (f : CMap → Board → Option (Bool × CMap × Board))
    (hfN : ∀ m b r, AllNodup m → f m b = some r → AllNodup r.2.1)
    (hfP : ∀ m b r, f m b = some r → r.1 = false → MapsPerm r.2.1 m) :
    ∀ (vs : List Nat) (x y : Nat) (m : CMap) (b : Board) (r : Bool × CMap × Board),
      AllNodup m → tryVals f x y vs m b = some r → AllNodup r.2.1 := by
  intro vs
  induction vs with
  | nil =>
    intro x y m b r hm hr
    have hr' : (false, m, b) = r := Option.some.inj hr
    rw [← hr']
    exact hm
  | cons v rest ih =>
    intro x y m b r hm hr
    rcases updateOptions_nodup m x y v hm with ⟨hm2, hch, hnv⟩
    rcases tryVals_cons_inv f x y v rest m b r hr with
      ⟨m3, b3, hfc, hrt⟩ | ⟨m3, b3, hfc, hrec⟩
    · have hm3 : AllNodup m3 := hfN _ _ _ hm2 hfc
      rw [hrt]
      exact hm3
    · have hm3 : AllNodup m3 := hfN _ _ _ hm2 hfc
      have hperm3 : MapsPerm m3 (updateOptions m x y v).1 := hfP _ _ _ hfc rfl
      exact ih x y _ b3 r (undo_allNodup_of_mapsPerm m x y v m3 hm3 hch hnv hperm3) hrec

theorem solveStep_allNodup :
    ∀ (fuel : Nat) (m : CMap) (b : Board) (r : Bool × CMap × Board),
      AllNodup m → solveStep fuel m b = some r → AllNodup r.2.1 := by
  intro fuel
  induction fuel with
  | zero => intro m b r _ hr; exact Option.noConfusion hr
  | succ n ih =>
    intro m b r hm hr
    rcases solveStep_succ_inv n m b r hr with
      ⟨_, hrt⟩ | ⟨_, hrt⟩ | ⟨k, hfind, _, ⟨m2, b2, htv, hrt⟩ | ⟨m2, b2, htv, hrt⟩⟩
    · rw [hrt]; exact hm
    · rw [hrt]; exact hm
    · rw [hrt]
      exact tryVals_allNodup (solveStep n) ih (solveStep_false_mapsPerm n) _ _ _ _ b _
        (allNodup_mapDelete k hm) htv
    · rw [hrt]
      have hm2 : AllNodup m2 :=
        tryVals_allNodup (solveStep n) ih (solveStep_false_mapsPerm n) _ _ _ _ b _
          (allNodup_mapDelete k hm) htv
      exact allNodup_mapSet k hm2 (hm k)

/-- C10: invariant confirmed. Candidate lists are duplicate-free throughout:
the initial mapping binds duplicate-free lists; for any mapping with
duplicate-free lists, one updateOptions call keeps all lists duplicate-free,
records each affected cell at most once in its changes list (a cell reachable
through two constraints is not removed twice, each removal being guarded by a
membership check), and leaves the removed value absent from every recorded
cell's list, so the per-cell undo push cannot introduce a duplicate; and a
solveStep run from a duplicate-free mapping returns a duplicate-free mapping
(covering the candidate-list removal and re-insertion it performs). -/
theorem c10_candidate_lists_distinct :
    (∀ b, AllNodup (getAllCellOptions b)) ∧
    (∀ m x y v, AllNodup m →
      (updateOptions m x y v).2.Nodup ∧ AllNodup (updateOptions m x y v).1 ∧
      AllNodup (undoAssignment (updateOptions m x y v).1 (updateOptions m x y v).2 v)) ∧
    (∀ fuel m b r, AllNodup m → solveStep fuel m b = some r → AllNodup r.2.1) := by
  refine ⟨getAllCellOptions_allNodup, fun m x y v hm => ?_, solveStep_allNodup⟩
  rcases updateOptions_nodup m x y v hm with ⟨hm2, hch, hnv⟩
  refine ⟨hch, hm2, ?_⟩
  intro j
  exact (updateOptions_undo_perm m x y v j).nodup_iff.2 (hm j)

/-- Witness for C10: the invariant instantiated at concrete inputs, with
every hypothesis discharged by evaluation. -/
theorem c10_candidate_lists_distinct_witness :
    AllNodup (getAllCellOptions emptyBoard) ∧
    (updateOptions [(1, [1, 2]), (2, [2, 3])] 0 0 2).2.Nodup := by
  have hm : AllNodup [(1, [1, 2]), (2, [2, 3])] :=
    allNodup_of_forall_mem _ (by decide)
  exact ⟨c10_candidate_lists_distinct.1 emptyBoard,
    (c10_candidate_lists_distinct.2.1 [(1, [1, 2]), (2, [2, 3])] 0 0 2 hm).1⟩

/-! ### Board cells written by the search -/

theorem getV_setV_ne (b : Board) (i v j : Nat) (h : j ≠ i) :
    getV (setV b i v) j = getV b j := by
  induction b generalizing i j with
  | nil => rfl
  | cons a t ih =>
    cases i with
    | zero =>
      cases j with
      | zero => exact absurd rfl h
      | succ j0 => rfl
    | succ i0 =>
      cases j with
      | zero => rfl
      | succ j0 => exact ih i0 j0 (fun hh => h (by rw [hh]))

theorem getV_setV_zero (b : Board) (i : Nat) : getV (setV b i 0) i = 0 := by
  induction b generalizing i with
  | nil => rfl
  | cons a t ih =>
    cases i with
    | zero => rfl
    | succ i0 => exact ih i0

theorem keysOf_mapDelete_subset {m : CMap} {k j : Nat}
    (h : j ∈ keysOf (mapDelete m k)) : j ∈ keysOf m := by
  have hs := (mapGet_isSome_iff (mapDelete m k) j).2 h
  rw [mapGet_mapDelete] at hs
  by_cases hj : j = k
  · rw [if_pos hj] at hs
    simp at hs
  · rw [if_neg hj] at hs
    exact (mapGet_isSome_iff m j).1 hs

theorem keysOf_updateOptions (m : CMap) (x y v : Nat) :
    keysOf (updateOptions m x y v).1 = keysOf m :=
  keysOf_updateFold v (updateKeys x y) (m, [])

theorem getAllCellOptions_keys_falsy (b : Board) :
    ∀ k ∈ keysOf (getAllCellOptions b), getV b k = 0 := by
  unfold getAllCellOptions
  refine foldl_preserve (fun m => ∀ k ∈ keysOf m, getV b k = 0) _ ?_ (List.range 9) [] ?_
  · intro m y hm
    refine foldl_preserve (fun m => ∀ k ∈ keysOf m, getV b k = 0) _ ?_ (List.range 9) m hm
    intro m1 x hm1
    by_cases hx : getValue b x y = 0
    · intro k hk
      by_cases hkk : k = 9 * y + x
      · rw [hkk]; exact hx
      · apply hm1 k
        have hs := (mapGet_isSome_iff _ k).2 (by simpa [hx] using hk)
        rw [mapGet_mapSet, if_neg hkk] at hs
        exact (mapGet_isSome_iff m1 k).1 hs
    · intro k hk
      exact hm1 k (by simpa [hx] using hk)
  · intro k hk
    simp [keysOf] at hk

theorem tryVals_frame
    (f : CMap → Board → Option (Bool × CMap × Board))
    (hf : ∀ m b r, f m b = some r → ∀ j, j ∉ keysOf m → getV r.2.2 j = getV b j)
    (hfP : ∀ m b r, f m b = some r → r.1 = false → MapsPerm r.2.1 m) :
    ∀ (vs : List Nat) (x y : Nat) (m : CMap) (b : Board) (r : Bool × CMap × Board),
      tryVals f x y vs m b = some r →
      ∀ j, j ∉ keysOf m → j ≠ 9 * y + x → getV r.2.2 j = getV b j := by
  intro vs
  induction vs with
  | nil =>
    intro x y m b r hr j hjm hjx
    have hr' : (false, m, b) = r := Option.some.inj hr
    rw [← hr']
  | cons v rest ih =>
    intro x y m b r hr j hjm hjx
    have hjupd : j ∉ keysOf (updateOptions m x y v).1 := by
      rw [keysOf_updateOptions]; exact hjm
    rcases tryVals_cons_inv f x y v rest m b r hr with
      ⟨m3, b3, hfc, hrt⟩ | ⟨m3, b3, hfc, hrec⟩
    · rw [hrt]
      have h1 := hf _ _ _ hfc j hjupd
      exact h1.trans (getV_setV_ne b (9 * y + x) v j hjx)
    · have hmp : MapsPerm m3 (updateOptions m x y v).1 := hfP _ _ _ hfc rfl
      have hjundo : j ∉ keysOf (undoAssignment m3 (updateOptions m x y v).2 v) := by
        rw [keysOf_undoAssignment]
        intro hmem
        have hs3 : (mapGet m3 j).isSome = true := (mapGet_isSome_iff m3 j).2 hmem
        have hsupd : (mapGet (updateOptions m x y v).1 j).isSome = true := by
          rw [← (hmp j).1]; exact hs3
        exact hjupd ((mapGet_isSome_iff _ j).1 hsupd)
      have h1 := hf _ _ _ hfc j hjupd
      have h2 := ih x y _ b3 r hrec j hjundo hjx
      exact h2.trans (h1.trans (getV_setV_ne b (9 * y + x) v j hjx))

theorem solveStep_frame :
    ∀ (fuel : Nat) (m : CMap) (b : Board) (r : Bool × CMap × Board),
      solveStep fuel m b = some r → ∀ j, j ∉ keysOf m → getV r.2.2 j = getV b j := by
  intro fuel
  induction fuel with
  | zero => intro m b r hr; exact Option.noConfusion hr
  | succ n ih =>
    intro m b r hr j hjm
    rcases solveStep_succ_inv n m b r hr with
      ⟨_, hrt⟩ | ⟨_, hrt⟩ | ⟨k, hfind, _, ⟨m2, b2, htv, hrt⟩ | ⟨m2, b2, htv, hrt⟩⟩
    · rw [hrt]
    · rw [hrt]
    · rw [hrt]
      have hjk : j ≠ 9 * (k / 9) + k % 9 := by
        rw [Nat.div_add_mod k 9]
        intro hj
        exact hjm (hj ▸ findNextCell_mem hfind)
      have hjm1 : j ∉ keysOf (mapDelete m k) := fun hh => hjm (keysOf_mapDelete_subset hh)
      exact tryVals_frame (solveStep n) ih (solveStep_false_mapsPerm n)
        ((mapGet m k).getD []) (k % 9) (k / 9) (mapDelete m k) b _ htv j hjm1 hjk
    · rw [hrt]
      have hjk : j ≠ 9 * (k / 9) + k % 9 := by
        rw [Nat.div_add_mod k 9]
        intro hj
        exact hjm (hj ▸ findNextCell_mem hfind)
      have hjm1 : j ∉ keysOf (mapDelete m k) := fun hh => hjm (keysOf_mapDelete_subset hh)
      have h2 := tryVals_frame (solveStep n) ih (solveStep_false_mapsPerm n)
        ((mapGet m k).getD []) (k % 9) (k / 9) (mapDelete m k) b _ htv j hjm1 hjk
      exact (getV_setV_ne b2 (9 * (k / 9) + k % 9) 0 j hjk).trans h2

/-- C5: confirmed. Every cell that is non-empty (holds a digit, a given) when
the solve attempt is triggered holds the same value after the attempt
completes, whether the result is true or false: the mapping built by
getAllCellOptions binds only cells whose value is falsy, and the search
writes board cells only at keys of its mapping. -/
theorem c5_given_cells_preserved (b : Board) (r : Bool × CMap × Board)
    (hr : solveRun b = some r) (k : Nat) (hk : getV b k ≠ 0) :
    getV r.2.2 k = getV b k := by
  apply solveStep_frame 82 (getAllCellOptions b) b r hr
  intro hmem
  exact hk (getAllCellOptions_keys_falsy b k hmem)

/-- Witness for C5: on quickFailBoard the solve attempt completes (with
result false) and the given 1 at cell (0,0) is unchanged. -/
theorem c5_given_cells_preserved_witness :
    getV ((solveRun quickFailBoard).getD (false, [], quickFailBoard)).2.2 0 =
      getV quickFailBoard 0 := by
  have h : solveRun quickFailBoard =
      some ((solveRun quickFailBoard).getD (false, [], quickFailBoard)) := rfl
  exact c5_given_cells_preserved quickFailBoard _ h 0 (by decide)

theorem tryVals_board_false
    (f : CMap → Board → Option (Bool × CMap × Board))
    (hf : ∀ m b r, f m b = some r → r.1 = false →
      ∀ j, getV r.2.2 j = getV b j ∨ getV r.2.2 j = 0) :
    ∀ (vs : List Nat) (x y : Nat) (m : CMap) (b : Board) (r : Bool × CMap × Board),
      tryVals f x y vs m b = some r → r.1 = false →
      ∀ j, getV r.2.2 j = getV b j ∨ getV r.2.2 j = 0 ∨ j = 9 * y + x := by
  intro vs
  induction vs with
  | nil =>
    intro x y m b r hr _ j
    have hr' : (false, m, b) = r := Option.some.inj hr
    rw [← hr']
    exact Or.inl rfl
  | cons v rest ih =>
    intro x y m b r hr hfalse j
    rcases tryVals_cons_inv f x y v rest m b r hr with
      ⟨m3, b3, hfc, hrt⟩ | ⟨m3, b3, hfc, hrec⟩
    · rw [hrt] at hfalse; exact absurd hfalse (by simp)
    · by_cases hj : j = 9 * y + x
      · exact Or.inr (Or.inr hj)
      · have h3 := hf _ _ _ hfc rfl j
        have hset : getV (setValue b x y v) j = getV b j := getV_setV_ne b _ v j hj
        rcases ih x y _ b3 r hrec hfalse j with h | h | h
        · rcases h3 with h3 | h3
          · exact Or.inl (h.trans (h3.trans hset))
          · exact Or.inr (Or.inl (h.trans h3))
        · exact Or.inr (Or.inl h)
        · exact absurd h hj

theorem solveStep_board_false :
    ∀ (fuel : Nat) (m : CMap) (b : Board) (r : Bool × CMap × Board),
      solveStep fuel m b = some r → r.1 = false →
      ∀ j, getV r.2.2 j = getV b j ∨ getV r.2.2 j = 0 := by
  intro fuel
  induction fuel with
  | zero => intro m b r hr; exact Option.noConfusion hr
  | succ n ih =>
    intro m b r hr hfalse j
    rcases solveStep_succ_inv n m b r hr with
      ⟨_, hrt⟩ | ⟨_, hrt⟩ | ⟨k, hfind, _, ⟨m2, b2, _, hrt⟩ | ⟨m2, b2, htv, hrt⟩⟩
    · rw [hrt] at hfalse; exact absurd hfalse (by simp)
    · rw [hrt] at hfalse; exact absurd hfalse (by simp)
    · rw [hrt] at hfalse; exact absurd hfalse (by simp)
    · rw [hrt]
      by_cases hj : j = 9 * (k / 9) + k % 9
      · right
        rw [hj]
        exact getV_setV_zero b2 (9 * (k / 9) + k % 9)
      · have hset : getV (setValue b2 (k % 9) (k / 9) 0) j = getV b2 j :=
          getV_setV_ne b2 _ 0 j hj
        rcases tryVals_board_false (solveStep n) ih _ _ _ _ b _ htv rfl j with h | h | h
        · exact Or.inl (hset.trans h)
        · exact Or.inr (hset.trans h)
        · exact absurd h hj

/-- C6: confirmed. If the solve attempt returns false, every cell that was
empty when it was triggered is empty afterwards: each failed branch clears
its trial cell back to empty, and the failing top-level call leaves only
values equal to the original board or cleared cells behind. -/
theorem c6_failed_solve_leaves_empty_cells_empty (b : Board) (r : Bool × CMap × Board)
    (hr : solveRun b = some r) (hfalse : r.1 = false) (k : Nat) (hk : getV b k = 0) :
    getV r.2.2 k = 0 := by
  rcases solveStep_board_false 82 (getAllCellOptions b) b r hr hfalse k with h | h
  · rw [h, hk]
  · exact h

/-- Witness for C6: on quickFailBoard the solve attempt completes with result
false and the initially empty cell (0,1), slot 9, is empty afterwards. -/
theorem c6_failed_solve_leaves_empty_cells_empty_witness :
    getV ((solveRun quickFailBoard).getD (false, [], quickFailBoard)).2.2 9 = 0 := by
  have h : solveRun quickFailBoard =
      some ((solveRun quickFailBoard).getD (false, [], quickFailBoard)) := rfl
  exact c6_failed_solve_leaves_empty_cells_empty quickFailBoard _ h rfl 9 (by decide)

/-! ### Characterization of findNextCell -/

theorem and_eq_true_intro {a b : Bool} (ha : a = true) (hb : b = true) :
    (a && b) = true := by rw [ha, hb]; rfl

theorem and_eq_true_elim {a b : Bool} (h : (a && b) = true) : a = true ∧ b = true := by
  cases a <;> cases b <;> simp_all

theorem find?_congr_mem {α : Type} {p q : α → Bool} :
    ∀ {l : List α}, (∀ a ∈ l, p a = q a) → l.find? p = l.find? q := by
  intro l
  induction l with
  | nil => intro _; rfl
  | cons a t ih =>
    intro h
    have ha := h a (List.mem_cons_self a t)
    cases hpa : p a with
    | true =>
      rw [List.find?_cons_of_pos _ hpa, List.find?_cons_of_pos _ (ha ▸ hpa)]
    | false =>
      rw [List.find?_cons_of_neg _ (by simp [hpa]),
        List.find?_cons_of_neg _ (by simp [← ha, hpa])]
      exact ih (fun x hx => h x (List.mem_cons_of_mem a hx))

theorem exists_not_of_all_eq_false {α : Type} {p : α → Bool} :
    ∀ {l : List α}, l.all p = false → ∃ x ∈ l, p x = false := by
  intro l
  induction l with
  | nil => intro h; exact absurd h (by simp)
  | cons a t ih =>
    intro h
    rw [List.all_cons] at h
    cases hpa : p a with
    | false => exact ⟨a, List.mem_cons_self a t, hpa⟩
    | true =>
      rw [hpa, Bool.true_and] at h
      rcases ih h with ⟨x, hx, hpx⟩
      exact ⟨x, List.mem_cons_of_mem a hx, hpx⟩

theorem exists_min_length : ∀ (t : CMap), t ≠ [] →
    ∃ q, q ∈ t ∧ ∀ r ∈ t, q.2.length ≤ r.2.length := by
  intro t
  induction t with
  | nil => intro h; exact absurd rfl h
  | cons p t' ih =>
    intro _
    cases ht' : t' with
    | nil =>
      refine ⟨p, List.mem_cons_self _ _, ?_⟩
      intro r hr
      rcases List.mem_cons.1 hr with h | h
      · rw [h]
      · exact absurd h (by simp)
    | cons p2 t2 =>
      rcases ih (by simp [ht']) with ⟨q, hq, hqmin⟩
      rw [← ht'] at *
      by_cases hpq : p.2.length ≤ q.2.length
      · refine ⟨p, List.mem_cons_self _ _, ?_⟩
        intro r hr
        rcases List.mem_cons.1 hr with h | h
        · rw [h]
        · exact le_trans hpq (hqmin r h)
      · refine ⟨q, List.mem_cons_of_mem _ hq, ?_⟩
        intro r hr
        rcases List.mem_cons.1 hr with h | h
        · rw [h]; exact le_of_not_le hpq
        · exact hqmin r h

theorem findNextCellGo_spec (t : CMap) :
    ∀ (bk bl : Nat),
      findNextCellGo t (some bk) (some bl) =
        match t.find? (fun q => decide (q.2.length < bl) &&
            t.all (fun r => decide (q.2.length ≤ r.2.length))) with
        | some q => some q.1
        | none => some bk := by
  induction t with
  | nil => intro bk bl; rfl
  | cons p t' ih =>
    intro bk bl
    rw [findNextCellGo]
    by_cases hp : p.2.length < bl
    · rw [if_pos (show ltMin p.2.length (some bl) = true by simp [ltMin, hp])]
      rw [ih p.1 p.2.length]
      by_cases hall : t'.all (fun r => decide (p.2.length ≤ r.2.length)) = true
      · have hnone : t'.find? (fun q => decide (q.2.length < p.2.length) &&
            t'.all (fun r => decide (q.2.length ≤ r.2.length))) = none := by
          rw [List.find?_eq_none]
          intro q hq hqt
          have h1 : q.2.length < p.2.length :=
            of_decide_eq_true (and_eq_true_elim hqt).1
          have h2 : p.2.length ≤ q.2.length :=
            of_decide_eq_true (List.all_eq_true.1 hall q hq)
          exact absurd h1 (Nat.not_lt.2 h2)
        have hpredp : (fun q : Nat × List Nat => decide (q.2.length < bl) &&
            (p :: t').all (fun r => decide (q.2.length ≤ r.2.length))) p = true := by
          show (decide (p.2.length < bl) &&
            (p :: t').all (fun r => decide (p.2.length ≤ r.2.length))) = true
          refine and_eq_true_intro (decide_eq_true hp) ?_
          rw [List.all_cons]
          exact and_eq_true_intro (decide_eq_true (le_refl _)) hall
        rw [hnone, @List.find?_cons_of_pos _ (fun q : Nat × List Nat =>
          decide (q.2.length < bl) &&
          (p :: t').all (fun r => decide (q.2.length ≤ r.2.length))) p t' hpredp]
      · have hallf : t'.all (fun r => decide (p.2.length ≤ r.2.length)) = false :=
          Bool.eq_false_iff.2 hall
        rcases exists_not_of_all_eq_false hallf with ⟨r0, hr0, hr0f⟩
        have hr0lt : r0.2.length < p.2.length :=
          Nat.lt_of_not_le (of_decide_eq_false hr0f)
        have hpredp : ¬ ((fun q : Nat × List Nat => decide (q.2.length < bl) &&
            (p :: t').all (fun r => decide (q.2.length ≤ r.2.length))) p = true) := by
          show ¬ ((decide (p.2.length < bl) &&
            (p :: t').all (fun r => decide (p.2.length ≤ r.2.length))) = true)
          rw [List.all_cons, hallf]
          simp
        rw [@List.find?_cons_of_neg _ (fun q : Nat × List Nat =>
          decide (q.2.length < bl) &&
          (p :: t').all (fun r => decide (q.2.length ≤ r.2.length))) p t' hpredp]
        have hcongr : t'.find? (fun q => decide (q.2.length < p.2.length) &&
              t'.all (fun r => decide (q.2.length ≤ r.2.length))) =
            t'.find? (fun q => decide (q.2.length < bl) &&
              (p :: t').all (fun r => decide (q.2.length ≤ r.2.length))) := by
          apply find?_congr_mem
          intro q hq
          show (decide (q.2.length < p.2.length) &&
              t'.all (fun r => decide (q.2.length ≤ r.2.length))) =
            (decide (q.2.length < bl) &&
              (p :: t').all (fun r => decide (q.2.length ≤ r.2.length)))
          rw [List.all_cons]
          cases hq2 : t'.all (fun r => decide (q.2.length ≤ r.2.length)) with
          | false => simp
          | true =>
            have hqr : q.2.length ≤ r0.2.length :=
              of_decide_eq_true (List.all_eq_true.1 hq2 r0 hr0)
            have hqp : q.2.length < p.2.length := lt_of_le_of_lt hqr hr0lt
            have hqbl : q.2.length < bl := lt_trans hqp hp
            rw [decide_eq_true hqp, decide_eq_true hqbl,
              decide_eq_true (le_of_lt hqp)]
            rfl
        rw [hcongr]
        have ht' : t' ≠ [] := fun h => by rw [h] at hr0; exact absurd hr0 (by simp)
        rcases exists_min_length t' ht' with ⟨q0, hq0, hq0min⟩
        have hq0p : q0.2.length < p.2.length := lt_of_le_of_lt (hq0min r0 hr0) hr0lt
        have hq0pred : (fun q : Nat × List Nat => decide (q.2.length < bl) &&
            (p :: t').all (fun r => decide (q.2.length ≤ r.2.length))) q0 = true := by
          show (decide (q0.2.length < bl) &&
            (p :: t').all (fun r => decide (q0.2.length ≤ r.2.length))) = true
          refine and_eq_true_intro (decide_eq_true (lt_trans hq0p hp)) ?_
          rw [List.all_cons]
          refine and_eq_true_intro (decide_eq_true (le_of_lt hq0p)) ?_
          exact List.all_eq_true.2 (fun r hr => decide_eq_true (hq0min r hr))
        cases hfq : t'.find? (fun q => decide (q.2.length < bl) &&
            (p :: t').all (fun r => decide (q.2.length ≤ r.2.length))) with
        | none =>
          rw [List.find?_eq_none] at hfq
          exact absurd hq0pred (hfq q0 hq0)
        | some q => rfl
    · rw [if_neg (show ¬ ltMin p.2.length (some bl) = true by simp [ltMin, hp])]
      rw [ih bk bl]
      have hbl : bl ≤ p.2.length := Nat.le_of_not_lt hp
      have hpredp : ¬ ((fun q : Nat × List Nat => decide (q.2.length < bl) &&
          (p :: t').all (fun r => decide (q.2.length ≤ r.2.length))) p = true) := by
        show ¬ ((decide (p.2.length < bl) &&
          (p :: t').all (fun r => decide (p.2.length ≤ r.2.length))) = true)
        rw [decide_eq_false hp]
        simp
      rw [@List.find?_cons_of_neg _ (fun q : Nat × List Nat =>
        decide (q.2.length < bl) &&
        (p :: t').all (fun r => decide (q.2.length ≤ r.2.length))) p t' hpredp]
      have hcongr : t'.find? (fun q => decide (q.2.length < bl) &&
            t'.all (fun r => decide (q.2.length ≤ r.2.length))) =
          t'.find? (fun q => decide (q.2.length < bl) &&
            (p :: t').all (fun r => decide (q.2.length ≤ r.2.length))) := by
        apply find?_congr_mem
        intro q hq
        show (decide (q.2.length < bl) &&
            t'.all (fun r => decide (q.2.length ≤ r.2.length))) =
          (decide (q.2.length < bl) &&
            (p :: t').all (fun r => decide (q.2.length ≤ r.2.length)))
        rw [List.all_cons]
        cases hq2 : t'.all (fun r => decide (q.2.length ≤ r.2.length)) with
        | false => simp
        | true =>
          by_cases hqbl : q.2.length < bl
          · have hqp : q.2.length ≤ p.2.length := le_trans (le_of_lt hqbl) hbl
            rw [decide_eq_true hqbl, decide_eq_true hqp]
            rfl
          · rw [decide_eq_false hqbl]
            simp
      rw [hcongr]

/-- C4 amended: findNextCell returns the first cell in Map iteration
(insertion) order whose candidate list length is minimal over the mapping,
and returns none exactly when the mapping is empty. On the freshly built
mapping the iteration order is row-major, but it is not row-major on every
reachable mapping, because a re-inserted cell moves to the end of iteration
order. -/
theorem c4_first_minimum_in_iteration_order (m : CMap) :
    findNextCell m = firstMinCell m ∧ (findNextCell m = none ↔ m = []) := by
  have hmain : findNextCell m = firstMinCell m := by
    cases m with
    | nil => rfl
    | cons p t =>
      rw [findNextCell, findNextCellGo,
        if_pos (show ltMin p.2.length none = true from rfl),
        findNextCellGo_spec t p.1 p.2.length]
      unfold firstMinCell
      by_cases hall : t.all (fun r => decide (p.2.length ≤ r.2.length)) = true
      · have hnone : t.find? (fun q => decide (q.2.length < p.2.length) &&
            t.all (fun r => decide (q.2.length ≤ r.2.length))) = none := by
          rw [List.find?_eq_none]
          intro q hq hqt
          have h1 : q.2.length < p.2.length :=
            of_decide_eq_true (and_eq_true_elim hqt).1
          have h2 : p.2.length ≤ q.2.length :=
            of_decide_eq_true (List.all_eq_true.1 hall q hq)
          exact absurd h1 (Nat.not_lt.2 h2)
        have hpredp : (fun q : Nat × List Nat =>
            (p :: t).all (fun r => decide (q.2.length ≤ r.2.length))) p = true := by
          show ((p :: t).all (fun r => decide (p.2.length ≤ r.2.length))) = true
          rw [List.all_cons]
          exact and_eq_true_intro (decide_eq_true (le_refl _)) hall
        rw [hnone, @List.find?_cons_of_pos _ (fun q : Nat × List Nat =>
          (p :: t).all (fun r => decide (q.2.length ≤ r.2.length))) p t hpredp]
        rfl
      · have hallf : t.all (fun r => decide (p.2.length ≤ r.2.length)) = false :=
          Bool.eq_false_iff.2 hall
        rcases exists_not_of_all_eq_false hallf with ⟨r0, hr0, hr0f⟩
        have hr0lt : r0.2.length < p.2.length :=
          Nat.lt_of_not_le (of_decide_eq_false hr0f)
        have hpredp : ¬ ((fun q : Nat × List Nat =>
            (p :: t).all (fun r => decide (q.2.length ≤ r.2.length))) p = true) := by
          show ¬ (((p :: t).all (fun r => decide (p.2.length ≤ r.2.length))) = true)
          rw [List.all_cons, hallf]
          simp
        rw [@List.find?_cons_of_neg _ (fun q : Nat × List Nat =>
          (p :: t).all (fun r => decide (q.2.length ≤ r.2.length))) p t hpredp]
        have hcongr : t.find? (fun q => decide (q.2.length < p.2.length) &&
              t.all (fun r => decide (q.2.length ≤ r.2.length))) =
            t.find? (fun q =>
              (p :: t).all (fun r => decide (q.2.length ≤ r.2.length))) := by
          apply find?_congr_mem
          intro q hq
          show (decide (q.2.length < p.2.length) &&
              t.all (fun r => decide (q.2.length ≤ r.2.length))) =
            ((p :: t).all (fun r => decide (q.2.length ≤ r.2.length)))
          rw [List.all_cons]
          cases hq2 : t.all (fun r => decide (q.2.length ≤ r.2.length)) with
          | false => simp
          | true =>
            have hqr : q.2.length ≤ r0.2.length :=
              of_decide_eq_true (List.all_eq_true.1 hq2 r0 hr0)
            have hqp : q.2.length < p.2.length := lt_of_le_of_lt hqr hr0lt
            rw [decide_eq_true hqp, decide_eq_true (le_of_lt hqp)]
        rw [hcongr]
        have ht : t ≠ [] := fun h => by rw [h] at hr0; exact absurd hr0 (by simp)
        rcases exists_min_length t ht with ⟨q0, hq0, hq0min⟩
        have hq0p : q0.2.length < p.2.length := lt_of_le_of_lt (hq0min r0 hr0) hr0lt
        have hq0pred : (fun q : Nat × List Nat =>
            (p :: t).all (fun r => decide (q.2.length ≤ r.2.length))) q0 = true := by
          show ((p :: t).all (fun r => decide (q0.2.length ≤ r.2.length))) = true
          rw [List.all_cons]
          refine and_eq_true_intro (decide_eq_true (le_of_lt hq0p)) ?_
          exact List.all_eq_true.2 (fun r hr => decide_eq_true (hq0min r hr))
        cases hfq : t.find? (fun q =>
            (p :: t).all (fun r => decide (q.2.length ≤ r.2.length))) with
        | none =>
          rw [List.find?_eq_none] at hfq
          exact absurd hq0pred (hfq q0 hq0)
        | some q => rfl
  refine ⟨hmain, ?_, ?_⟩
  · intro h
    cases m with
    | nil => rfl
    | cons p t =>
      rw [hmain] at h
      unfold firstMinCell at h
      cases hfq : (p :: t).find? (fun q =>
          (p :: t).all (fun r => decide (q.2.length ≤ r.2.length))) with
      | none =>
        rw [List.find?_eq_none] at hfq
        rcases exists_min_length (p :: t) (by simp) with ⟨q0, hq0, hq0min⟩
        exact absurd (List.all_eq_true.2 (fun r hr => decide_eq_true (hq0min r hr)))
          (hfq q0 hq0)
      | some q =>
        rw [hfq] at h
        exact Option.noConfusion h
  · intro h
    rw [h]
    rfl

/-! ### Loader: which board slots are written, and when loading fails -/

theorem loadChar_ok_eq (b : Board) (y x : Nat) (c : Char) :
    loadChar (Except.ok b) y x c = match jsNumericVal c with
      | none => Except.ok b
      | some v => if 9 * y + x < 81 then Except.ok (setV b (9 * y + x) v)
                  else Except.error () := rfl

theorem loadRowGo_error (y : Nat) : ∀ (cs : List Char) (x : Nat),
    loadRowGo y x cs (Except.error ()) = Except.error () := by
  intro cs
  induction cs with
  | nil => intro x; rfl
  | cons c cs ih => intro x; exact ih (x + 1)

theorem getV_replicate_zero : ∀ (n k : Nat), getV (List.replicate n 0) k = 0 := by
  intro n
  induction n with
  | zero => intro k; rfl
  | succ n0 ih =>
    intro k
    cases k with
    | zero => rfl
    | succ k0 => exact ih k0

theorem loadRowGo_ok_cases (y : Nat) :
    ∀ (cs : List Char) (x : Nat) (b : Board),
      (loadRowGo y x cs (Except.ok b) = Except.error () ↔
        ∃ s ∈ rowDigitSlots y x cs, 81 ≤ s) ∧
      (∀ b2, loadRowGo y x cs (Except.ok b) = Except.ok b2 →
        ∀ k, k ∉ rowDigitSlots y x cs → getV b2 k = getV b k) := by
  intro cs
  induction cs with
  | nil =>
    intro x b
    constructor
    · constructor
      · intro h; exact Except.noConfusion h
      · rintro ⟨s, hs, _⟩; exact absurd hs (by simp [rowDigitSlots])
    · intro b2 h2 k _
      have hb : b = b2 := Except.ok.inj h2
      rw [hb]
  | cons c cs ih =>
    intro x b
    have hstep : loadRowGo y x (c :: cs) (Except.ok b) =
        loadRowGo y (x + 1) cs (loadChar (Except.ok b) y x c) := rfl
    have hslots : rowDigitSlots y x (c :: cs) =
        (if (jsNumericVal c).isSome then [9 * y + x] else []) ++
          rowDigitSlots y (x + 1) cs := rfl
    cases hnum : jsNumericVal c with
    | none =>
      have hchar : loadChar (Except.ok b) y x c = Except.ok b := by
        rw [loadChar_ok_eq, hnum]
      rw [hstep, hchar, hslots, hnum]
      simp only [Option.isSome_none, Bool.false_eq_true, if_false, List.nil_append]
      exact ih (x + 1) b
    | some v =>
      by_cases hlt : 9 * y + x < 81
      · have hchar : loadChar (Except.ok b) y x c =
            Except.ok (setV b (9 * y + x) v) := by
          rw [loadChar_ok_eq, hnum]
          show (if 9 * y + x < 81 then Except.ok (setV b (9 * y + x) v)
            else Except.error ()) = Except.ok (setV b (9 * y + x) v)
          exact if_pos hlt
        rw [hstep, hchar, hslots, hnum]
        simp only [Option.isSome_some, if_true, List.singleton_append]
        constructor
        · rw [(ih (x + 1) (setV b (9 * y + x) v)).1]
          constructor
          · rintro ⟨s, hs, h81⟩
            exact ⟨s, List.mem_cons_of_mem _ hs, h81⟩
          · rintro ⟨s, hs, h81⟩
            rcases List.mem_cons.1 hs with h | h
            · rw [h] at h81
              exact absurd hlt (Nat.not_lt.2 h81)
            · exact ⟨s, h, h81⟩
        · intro b2 h2 k hk
          have hk1 : k ∉ rowDigitSlots y (x + 1) cs :=
            fun hh => hk (List.mem_cons_of_mem _ hh)
          have hkslot : k ≠ 9 * y + x := fun hh => hk (hh ▸ List.mem_cons_self _ _)
          have h3 := (ih (x + 1) (setV b (9 * y + x) v)).2 b2 h2 k hk1
          rw [h3]
          exact getV_setV_ne b (9 * y + x) v k hkslot
      · have hchar : loadChar (Except.ok b) y x c = Except.error () := by
          rw [loadChar_ok_eq, hnum]
          show (if 9 * y + x < 81 then Except.ok (setV b (9 * y + x) v)
            else Except.error ()) = Except.error ()
          exact if_neg hlt
        rw [hstep, hchar, loadRowGo_error y cs (x + 1), hslots, hnum]
        simp only [Option.isSome_some, if_true, List.singleton_append]
        constructor
        · constructor
          · intro _
            exact ⟨9 * y + x, List.mem_cons_self _ _, Nat.le_of_not_lt hlt⟩
          · intro _; trivial
        · intro b2 h2
          exact Except.noConfusion h2

theorem loadGo_error : ∀ (rs : List (List Char)) (y : Nat),
    loadGo y rs (Except.error ()) = Except.error () := by
  intro rs
  induction rs with
  | nil => intro y; rfl
  | cons r rs ih =>
    intro y
    have hstep : loadGo y (r :: rs) (Except.error ()) =
        loadGo (y + 1) rs (loadRowGo y 0 r (Except.error ())) := rfl
    rw [hstep, loadRowGo_error y r 0]
    exact ih (y + 1)

theorem loadGo_ok_cases :
    ∀ (rs : List (List Char)) (y : Nat) (b : Board),
      (loadGo y rs (Except.ok b) = Except.error () ↔
        ∃ s ∈ digitSlotsGo y rs, 81 ≤ s) ∧
      (∀ b2, loadGo y rs (Except.ok b) = Except.ok b2 →
        ∀ k, k ∉ digitSlotsGo y rs → getV b2 k = getV b k) := by
  intro rs
  induction rs with
  | nil =>
    intro y b
    constructor
    · constructor
      · intro h; exact Except.noConfusion h
      · rintro ⟨s, hs, _⟩; exact absurd hs (by simp [digitSlotsGo])
    · intro b2 h2 k _
      have hb : b = b2 := Except.ok.inj h2
      rw [hb]
  | cons r rs ih =>
    intro y b
    have hstep : loadGo y (r :: rs) (Except.ok b) =
        loadGo (y + 1) rs (loadRowGo y 0 r (Except.ok b)) := rfl
    have hslots : digitSlotsGo y (r :: rs) =
        rowDigitSlots y 0 r ++ digitSlotsGo (y + 1) rs := rfl
    cases hrow : loadRowGo y 0 r (Except.ok b) with
    | error e =>
      cases e
      rw [hstep, hrow, hslots]
      constructor
      · constructor
        · intro _
          rcases (loadRowGo_ok_cases y r 0 b).1.1 hrow with ⟨s, hs, hs81⟩
          exact ⟨s, List.mem_append.2 (Or.inl hs), hs81⟩
        · intro _
          exact loadGo_error rs (y + 1)
      · intro b2 h2
        rw [loadGo_error rs (y + 1)] at h2
        exact Except.noConfusion h2
    | ok b1 =>
      rw [hstep, hrow, hslots]
      constructor
      · rw [(ih (y + 1) b1).1]
        constructor
        · rintro ⟨s, hs, h81⟩
          exact ⟨s, List.mem_append.2 (Or.inr hs), h81⟩
        · rintro ⟨s, hs, h81⟩
          rcases List.mem_append.1 hs with h | h
          · exfalso
            have hne := (loadRowGo_ok_cases y r 0 b).1
            rw [hrow] at hne
            have : (Except.ok b1 : Except Unit Board) = Except.error () :=
              hne.2 ⟨s, h, h81⟩
            exact Except.noConfusion this
          · exact ⟨s, h, h81⟩
      · intro b2 h2 k hk
        have hk1 : k ∉ digitSlotsGo (y + 1) rs :=
          fun hh => hk (List.mem_append.2 (Or.inr hh))
        have hk2 : k ∉ rowDigitSlots y 0 r :=
          fun hh => hk (List.mem_append.2 (Or.inl hh))
        have h3 := (ih (y + 1) b1).2 b2 h2 k hk1
        have h4 := (loadRowGo_ok_cases y r 0 b).2 b1 hrow k hk2
        rw [h3, h4]

/-- C7 amended: the loader writes, for each digit-like character at line y
and character index x, the Board slot 9*y+x with no bound check. Loading
fails exactly when some digit-like character sits at a slot number of at
least 81 (an out-of-range write on the cells array); when it succeeds, every
slot that received no digit write is empty, and in particular short lines or
few rows leave the remaining cells empty. A digit at x of at least 9 whose
slot is still below 81 is not ignored: it changes the cell at linear index
9*y+x, a cell of a later row (shown by the counterexample evaluation). -/
theorem c7_loader_slots_characterization (content : List (List Char)) :
    (loadSudoku content = Except.error () ↔ ∃ s ∈ digitSlots content, 81 ≤ s) ∧
    (∀ b, loadSudoku content = Except.ok b →
      ∀ k, k ∉ digitSlots content → getV b k = 0) := by
  have h := loadGo_ok_cases content 0 emptyBoard
  refine ⟨h.1, ?_⟩
  intro b hb k hk
  rw [h.2 b hb k hk]
  exact getV_replicate_zero 81 k

/-- Witness for C7: loading Scenario D's line succeeds, and slot 20 (cell
(2,2)), which receives no digit write, is empty afterwards. -/
theorem c7_loader_slots_characterization_witness :
    getV (exceptGetD (loadSudoku [scenarioDLine]) emptyBoard) 20 = 0 := by
  have h : loadSudoku [scenarioDLine] =
      Except.ok (exceptGetD (loadSudoku [scenarioDLine]) emptyBoard) := rfl
  exact (c7_loader_slots_characterization [scenarioDLine]).2 _ h 20 (by decide)

end SudokuSolver
